import Mathlib

/-!
Verification of `gcloud_ping.py`: the winsorized-mean statistic, the
per-region measurement state, the ping failure handling, and the main
ping-cycle loop, embedded shallowly in Lean.

Conventions of the embedding:
* Python lists of round-trip times become `List ℤ` (nanoseconds).
* Python `int(x)` on a float/rational becomes truncation toward zero
  (`itrunc`); fractions such as `0.05` become exact rationals.
* Python `//` (floor division) becomes `Int.fdiv`.
* Python's stable `sorted(range(n), key=l.__getitem__)` becomes sorting
  the index list by the lexicographic key (value, index), which is the
  unique permutation a stable sort produces.
* `Region.ping` becomes a transition on a `Region` record, parameterised
  by the outcome of the network interaction; a Python exception that the
  `except` clause does not catch becomes `Except.error`.
-/

namespace GcloudPing

/-- Python `int(q)` for a rational: truncation toward zero
(`q.num.tdiv q.den`, the numerator T-divided by the positive denominator). -/
def itrunc (q : ℚ) : ℤ := q.num.tdiv q.den

/-- The comparison key Python's stable `sorted(range(n), key=l.__getitem__)`
effectively sorts by: value first, original index as tie-break. -/
def keyLe (l : List ℤ) (i j : ℕ) : Prop :=
  l.getD i 0 < l.getD j 0 ∨ (l.getD i 0 = l.getD j 0 ∧ i ≤ j)

instance (l : List ℤ) : DecidableRel (keyLe l) := fun i j => by
  unfold keyLe; infer_instance

instance (l : List ℤ) : IsTotal ℕ (keyLe l) where
  total i j := by
    unfold keyLe
    rcases lt_trichotomy (l.getD i 0) (l.getD j 0) with h | h | h
    · exact Or.inl (Or.inl h)
    · rcases Nat.le_total i j with h' | h'
      · exact Or.inl (Or.inr ⟨h, h'⟩)
      · exact Or.inr (Or.inr ⟨h.symm, h'⟩)
    · exact Or.inr (Or.inl h)

instance (l : List ℤ) : IsTrans ℕ (keyLe l) where
  trans i j k := by
    unfold keyLe
    rintro (h | ⟨h, h'⟩) (g | ⟨g, g'⟩)
    · exact Or.inl (h.trans g)
    · exact Or.inl (g ▸ h)
    · exact Or.inl (h ▸ g)
    · exact Or.inr ⟨h.trans g, h'.trans g'⟩

/-- `idx = sorted(range(n), key=l_copy.__getitem__)` of the source. -/
def sIdx (l : List ℤ) : List ℕ := List.insertionSort (keyLe l) (List.range l.length)

/-- One overwrite loop of `winsorize`: `for i in ranks: l_copy[idx[i]] = v`. -/
def setRanks (idx : List ℕ) (l : List ℤ) (ranks : List ℕ) (v : ℤ) : List ℤ :=
  ranks.foldl (fun acc r => acc.set (idx.getD r 0) v) l

/-- `lower_index = int(lower_limit * n)` of the source. -/
def lowIdx (l : List ℤ) (lower_limit : ℚ) : ℤ := itrunc (lower_limit * l.length)

/-- `upper_index = n - int(upper_limit * n)` of the source. -/
def upIdx (l : List ℤ) (upper_limit : ℚ) : ℤ :=
  (l.length : ℤ) - itrunc (upper_limit * l.length)

/-- The lower clamping loop of `winsorize`, given the computed
`lower_index`: when `0 < lower_index < n`, read
`lower_val = l_copy[idx[lower_index]]` and overwrite the positions of
sorted ranks `0 .. lower_index - 1` with it. -/
def lowerPass (l : List ℤ) (lower_index : ℤ) : List ℤ :=
  if 0 < lower_index ∧ lower_index < (l.length : ℤ) then
    setRanks (sIdx l) l (List.range lower_index.toNat)
      (l.getD ((sIdx l).getD lower_index.toNat 0) 0)
  else l

/-- The upper clamping loop of `winsorize`, given the computed
`upper_index`: when `0 < upper_index < n`, read
`upper_val = l_copy[idx[upper_index - 1]]` from the list as already
modified by the lower pass, and overwrite the positions of sorted ranks
`upper_index .. n - 1` with it. -/
def upperPass (l : List ℤ) (l1 : List ℤ) (upper_index : ℤ) : List ℤ :=
  if 0 < upper_index ∧ upper_index < (l.length : ℤ) then
    setRanks (sIdx l) l1
      (List.range' upper_index.toNat (l.length - upper_index.toNat))
      (l1.getD ((sIdx l).getD (upper_index.toNat - 1) 0) 0)
  else l1

/-- The `winsorize` function of `gcloud_ping.py`: copy the list, return it
if empty, sort indexes by value, run the lower clamping loop at
`lower_index = int(lower_limit * n)`, then the upper clamping loop at
`upper_index = n - int(upper_limit * n)`. -/
def winsorize (l : List ℤ) (lower_limit : ℚ := 0) (upper_limit : ℚ := 0) : List ℤ :=
  if l.length = 0 then l
  else upperPass l (lowerPass l (lowIdx l lower_limit)) (upIdx l upper_limit)

/-- `WINSORIZED_MEAN_LOWER_LIMIT = 0.05`. -/
def WINSORIZED_MEAN_LOWER_LIMIT : ℚ := 5 / 100

/-- `WINSORIZED_MEAN_UPPER_LIMIT = 0.10`. -/
def WINSORIZED_MEAN_UPPER_LIMIT : ℚ := 10 / 100

/-- The values of `l` listed in sorted order: the composite
`r ↦ l[idx[r]]` of the source, as a list. -/
def sVals (l : List ℤ) : List ℤ := (sIdx l).map (fun i => l.getD i 0)

/-- The value the lower pass leaves at sorted rank `r`. -/
def glow (l : List ℤ) (lower_limit : ℚ) (r : ℕ) : ℤ :=
  if 0 < lowIdx l lower_limit ∧ lowIdx l lower_limit < (l.length : ℤ)
      ∧ (r : ℤ) < lowIdx l lower_limit then
    (sVals l).getD (lowIdx l lower_limit).toNat 0
  else (sVals l).getD r 0

/-- The value `winsorize` leaves at sorted rank `r`. -/
def wRank (l : List ℤ) (lower_limit upper_limit : ℚ) (r : ℕ) : ℤ :=
  if 0 < upIdx l upper_limit ∧ upIdx l upper_limit < (l.length : ℤ)
      ∧ upIdx l upper_limit ≤ (r : ℤ) then
    glow l lower_limit ((upIdx l upper_limit).toNat - 1)
  else glow l lower_limit r

/-- The lower overwrite of claim C3's description: clamp the count into
`[0, n-1]`, then overwrite every sorted rank below it with the value at
that rank (no skip-guard). -/
def lowerClamp (l : List ℤ) (count : ℤ) : List ℤ :=
  setRanks (sIdx l) l (List.range (min (max count 0) ((l.length : ℤ) - 1)).toNat)
    (l.getD ((sIdx l).getD (min (max count 0) ((l.length : ℤ) - 1)).toNat 0) 0)

/-- The upper overwrite of claim C3's description: clamp the count into
`[0, n-1]`, set `upperRankStart = n - count`, and overwrite every sorted
rank at or above it with the value at rank `upperRankStart - 1`. -/
def upperClamp (l l1 : List ℤ) (count : ℤ) : List ℤ :=
  setRanks (sIdx l) l1
    (List.range' (l.length - (min (max count 0) ((l.length : ℤ) - 1)).toNat)
      (l.length - (l.length - (min (max count 0) ((l.length : ℤ) - 1)).toNat)))
    (l1.getD ((sIdx l).getD ((l.length - (min (max count 0) ((l.length : ℤ) - 1)).toNat) - 1) 0) 0)

/-- The transformation claim C3 describes, written from the claim's own
words for comparison with `winsorize`: `lowerCount` and `upperCount` are
clamped into `[0, n-1]` and both overwrites always run (where `winsorize`
instead skips an overwrite whenever its computed index falls outside the
open interval `(0, n)`). -/
def winsorizeSpecClamp (l : List ℤ) (lower_limit upper_limit : ℚ) : List ℤ :=
  if l.length = 0 then l
  else upperClamp l (lowerClamp l (itrunc (lower_limit * l.length)))
    (itrunc (upper_limit * l.length))

/-! ### The Region state -/

/-- The mutable state of a `Region` object: the stored measurement history
(`_measurements`, nanoseconds) and the cached average (`_average_rtt_ns`,
`None` until the first successful ping). -/
structure Region where
  id : String
  measurements : List ℤ
  average_rtt_ns : Option ℤ
  deriving DecidableEq

/-- `Region.__init__`: empty history, no cached average. -/
def Region.init (id : String) : Region :=
  { id := id, measurements := [], average_rtt_ns := none }

/-- `Region.average_rtt_ms`: cached average converted to ms, `-1` when absent. -/
def Region.average_rtt_ms (r : Region) : ℤ :=
  match r.average_rtt_ns with
  | some a => a.fdiv 1000000
  | none => -1

/-- `Region.last_rtt_ms`: last stored measurement in ms, `-1` when the
history is empty. -/
def Region.last_rtt_ms (r : Region) : ℤ :=
  match r.measurements.getLast? with
  | some m => m.fdiv 1000000
  | none => -1

/-- `Region.ping_count`: length of the stored history. -/
def Region.ping_count (r : Region) : ℕ := r.measurements.length

/-- The Python exceptions relevant to `Region.ping`'s `try` block. -/
inductive PyExc where
  /-- `http.client.HTTPException` (or a subclass) raised by the HTTP layer. -/
  | httpException (msg : String)
  /-- `ValueError`, raised by `ping` itself on a non-200 status. -/
  | valueError (msg : String)
  /-- An `OSError` (connection failure, `socket.timeout`, DNS failure, ...)
  raised by the socket layer. -/
  | osError (msg : String)
  deriving DecidableEq

/-- `type(e).__name__` of the embedded Python exceptions. -/
def excName : PyExc → String
  | .httpException _ => "HTTPException"
  | .valueError _ => "ValueError"
  | .osError _ => "OSError"

/-- `str(e)` of the embedded Python exceptions. -/
def excMsg : PyExc → String
  | .httpException m => m
  | .valueError m => m
  | .osError m => m

/-- The stderr line `f"Error while pinging {self.id}: {type(e).__name__}: {e}"`. -/
def pingErrorLine (id : String) (e : PyExc) : String :=
  "Error while pinging " ++ (id ++ (": " ++ (excName e ++ (": " ++ excMsg e))))

/-- Which exceptions the clause `except (http.client.HTTPException, ValueError)`
catches. -/
def caughtByPing : PyExc → Bool
  | .httpException _ => true
  | .valueError _ => true
  | .osError _ => false

/-- The outcome of the network interaction inside one `ping` call:
either a complete HTTP response (status plus the measured elapsed time,
nonnegative because `perf_counter_ns` is monotonic), or an exception
raised during `request` / `getresponse` / `read`. -/
inductive ProbeOutcome where
  | response (status : ℕ) (rtt_ns : ℕ)
  | raised (e : PyExc)
  deriving DecidableEq

/-- The body of `Region.ping`'s `try` block: on status 200 append the
measurement, recompute the winsorized average, and return `last_rtt_ms`;
on any other status raise `ValueError`; a transport exception propagates. -/
def Region.pingBody (r : Region) (o : ProbeOutcome) : Except PyExc (Region × Option ℤ) :=
  match o with
  | .raised e => .error e
  | .response status rtt_ns =>
    if status = 200 then
      let ms := r.measurements ++ [(rtt_ns : ℤ)]
      let w := winsorize ms WINSORIZED_MEAN_LOWER_LIMIT WINSORIZED_MEAN_UPPER_LIMIT
      let r' : Region := { r with
        measurements := ms
        average_rtt_ns := some (w.sum.fdiv w.length) }
      .ok (r', some r'.last_rtt_ms)
    else
      .error (.valueError ("Unexpected HTTP status code: " ++ toString status))

/-- `Region.ping`: run the body; catch `HTTPException` and `ValueError`,
print a diagnostic and return `None`; any other exception propagates.
The result carries the new state, the returned value, and the lines
printed to stderr. -/
def Region.ping (r : Region) (o : ProbeOutcome) :
    Except PyExc (Region × Option ℤ × List String) :=
  match r.pingBody o with
  | .ok (r', v) => .ok (r', v, [])
  | .error e =>
    if caughtByPing e then .ok (r, none, [pingErrorLine r.id e])
    else .error e

/-- What one cycle does to one region's state: the executor stores an
uncaught exception in the future and the cycle proceeds, so the state is
unchanged in that case. -/
def cycleStep (r : Region) (o : ProbeOutcome) : Region :=
  match r.ping o with
  | .ok (r', _, _) => r'
  | .error _ => r

/-- The region states reachable by the program: freshly constructed, then
driven by ping outcomes, one per cycle. -/
inductive Reachable : Region → Prop where
  | init (id : String) : Reachable (Region.init id)
  | step {r : Region} (o : ProbeOutcome) : Reachable r → Reachable (cycleStep r o)

/-- Run the per-region part of several cycles, oldest outcome first. -/
def runCycles (r : Region) (os : List ProbeOutcome) : Region :=
  os.foldl cycleStep r

/-- Whether an outcome is a successful probe (HTTP status 200, no exception). -/
def ProbeOutcome.isSuccess : ProbeOutcome → Bool
  | .response status _ => status = 200
  | .raised _ => false

/-- Whether an outcome is a failure that `ping`'s `except` clause handles:
a non-200 response (the `ValueError` path) or a raised exception the
clause lists. A raised `OSError` is a failure it does not handle. -/
def caughtFailure : ProbeOutcome → Bool
  | .response status _ => status ≠ 200
  | .raised e => caughtByPing e

/-- Reading the `average_rtt_ms` property: it computes a value from the
state and leaves the state untouched (the getter assigns no attribute). -/
def readAverage (r : Region) : ℤ × Region := (r.average_rtt_ms, r)

/-- The invariant tying the cached `_average_rtt_ns` to the stored
history: measurements are nonnegative (elapsed times of a monotonic
clock), the cache is `None` exactly for an empty history, and otherwise
holds the floor-divided mean of the winsorized history. -/
def RegionInv (r : Region) : Prop :=
  (∀ x ∈ r.measurements, 0 ≤ x) ∧
  (r.average_rtt_ns = none ↔ r.measurements = []) ∧
  (r.measurements ≠ [] → r.average_rtt_ns =
    some ((winsorize r.measurements WINSORIZED_MEAN_LOWER_LIMIT
      WINSORIZED_MEAN_UPPER_LIMIT).sum.fdiv (r.measurements.length : ℤ)))

/-! ### The main loop -/

/-- Default of `-c` / `--ping-count` in `parse_args`. -/
def defaultPingCount : ℤ := 64

/-- The `while count < args.ping_count` loop of `main`, with explicit fuel:
`pingLoop pc fuel count = some k` means the loop, entered with counter
`count`, exits normally within `fuel` iterations with final counter `k`
(so `k - count` further cycles were run); `none` means it has not exited
within `fuel` iterations. -/
def pingLoop (pc : ℤ) : ℕ → ℕ → Option ℕ
  | 0, _ => none
  | fuel + 1, count =>
    if (count : ℤ) < pc then pingLoop pc fuel (count + 1) else some count

/-! ### Generic list lemmas -/

theorem getD_of_lt {α : Type} (l : List α) (d : α) {n : ℕ} (h : n < l.length) :
    l.getD n d = l.get ⟨n, h⟩ := by
  simp [List.getD_eq_getElem?_getD, List.getElem?_eq_getElem h]

theorem getD_set_self {α : Type} (l : List α) {i : ℕ} (h : i < l.length) (v d : α) :
    (l.set i v).getD i d = v := by
  rw [getD_of_lt _ _ (show i < (l.set i v).length by simpa using h)]
  simp

theorem getD_set_ne {α : Type} (l : List α) {i j : ℕ} (h : i ≠ j) (v d : α) :
    (l.set i v).getD j d = l.getD j d := by
  simp [List.getD_eq_getElem?_getD, List.getElem?_set_ne h]

theorem nodup_getD_inj {xs : List ℕ} (h : xs.Nodup) {r s : ℕ}
    (hr : r < xs.length) (hs : s < xs.length)
    (he : xs.getD r 0 = xs.getD s 0) : r = s := by
  rw [getD_of_lt _ _ hr, getD_of_lt _ _ hs] at he
  exact Fin.val_eq_of_eq (h.get_inj_iff.mp he)

theorem map_getD_range (l : List ℤ) :
    (List.range l.length).map (fun i => l.getD i 0) = l := by
  apply List.ext_getElem
  · simp
  · intro i h1 h2
    simp only [List.getElem_map, List.getElem_range]
    rw [getD_of_lt _ _ h2]
    simp

/-! ### Facts about the sorted index permutation -/

theorem sIdx_perm (l : List ℤ) : (sIdx l).Perm (List.range l.length) :=
  List.perm_insertionSort _ _

theorem sIdx_length (l : List ℤ) : (sIdx l).length = l.length := by
  simpa using (sIdx_perm l).length_eq

theorem sIdx_nodup (l : List ℤ) : (sIdx l).Nodup :=
  ((sIdx_perm l).nodup_iff).mpr (List.nodup_range _)

theorem sIdx_sorted (l : List ℤ) : (sIdx l).Sorted (keyLe l) :=
  List.sorted_insertionSort _ _

theorem sIdx_mem_lt {l : List ℤ} {i : ℕ} (h : i ∈ sIdx l) : i < l.length := by
  have := (sIdx_perm l).mem_iff.mp h
  simpa using this

theorem sIdx_getD_lt {l : List ℤ} {r : ℕ} (h : r < l.length) :
    (sIdx l).getD r 0 < l.length := by
  have hr : r < (sIdx l).length := by rw [sIdx_length]; exact h
  rw [getD_of_lt _ _ hr]
  exact sIdx_mem_lt (List.get_mem _ _ _)

theorem sIdx_getD_inj {l : List ℤ} {r s : ℕ} (hr : r < l.length) (hs : s < l.length)
    (h : (sIdx l).getD r 0 = (sIdx l).getD s 0) : r = s :=
  nodup_getD_inj (sIdx_nodup l) (by rw [sIdx_length]; exact hr)
    (by rw [sIdx_length]; exact hs) h

theorem sIdx_surj {l : List ℤ} {p : ℕ} (hp : p < l.length) :
    ∃ r, r < l.length ∧ (sIdx l).getD r 0 = p := by
  have hmem : p ∈ sIdx l := (sIdx_perm l).mem_iff.mpr (by simpa using hp)
  obtain ⟨r, hr, he⟩ := List.getElem_of_mem hmem
  refine ⟨r, by rwa [sIdx_length] at hr, ?_⟩
  rw [getD_of_lt _ _ hr]
  exact he

/-! ### The sorted value sequence -/

theorem sVals_length (l : List ℤ) : (sVals l).length = l.length := by
  simp [sVals, sIdx_length]

theorem sVals_getD {l : List ℤ} {r : ℕ} (h : r < l.length) :
    (sVals l).getD r 0 = l.getD ((sIdx l).getD r 0) 0 := by
  have h1 : r < (sVals l).length := by rw [sVals_length]; exact h
  have h2 : r < (sIdx l).length := by rw [sIdx_length]; exact h
  rw [getD_of_lt _ _ h1, getD_of_lt _ _ h2]
  simp [sVals]

theorem keyLe_le {l : List ℤ} {i j : ℕ} (h : keyLe l i j) : l.getD i 0 ≤ l.getD j 0 := by
  rcases h with h | ⟨h, _⟩
  · exact le_of_lt h
  · exact le_of_eq h

theorem sVals_sorted (l : List ℤ) : (sVals l).Sorted (· ≤ ·) :=
  List.Pairwise.map _ (fun _ _ h => keyLe_le h) (sIdx_sorted l)

theorem sVals_perm (l : List ℤ) : (sVals l).Perm l := by
  have h := (sIdx_perm l).map (fun i => l.getD i 0)
  rwa [map_getD_range] at h

theorem sVals_getD_mono {l : List ℤ} {r s : ℕ} (hrs : r ≤ s) (hs : s < l.length) :
    (sVals l).getD r 0 ≤ (sVals l).getD s 0 := by
  rcases eq_or_lt_of_le hrs with rfl | hlt
  · exact le_refl _
  · have h1 : r < (sVals l).length := by rw [sVals_length]; exact lt_of_le_of_lt hrs hs
    have h2 : s < (sVals l).length := by rw [sVals_length]; exact hs
    rw [getD_of_lt _ _ h1, getD_of_lt _ _ h2]
    exact List.pairwise_iff_getElem.mp (sVals_sorted l) r s h1 h2 hlt

theorem sVals_mem {l : List ℤ} {r : ℕ} (h : r < l.length) : (sVals l).getD r 0 ∈ l := by
  have h1 : r < (sVals l).length := by rw [sVals_length]; exact h
  rw [getD_of_lt _ _ h1]
  exact (sVals_perm l).subset (List.get_mem _ _ _)

/-! ### The effect of the overwrite loops -/

theorem setRanks_length (idx : List ℕ) (l : List ℤ) (ranks : List ℕ) (v : ℤ) :
    (setRanks idx l ranks v).length = l.length := by
  induction ranks generalizing l with
  | nil => rfl
  | cons a as ih =>
    show (setRanks idx (l.set (idx.getD a 0) v) as v).length = l.length
    rw [ih]
    simp

theorem setRanks_getD (idx : List ℕ) (ranks : List ℕ) (v : ℤ)
    (hnd : idx.Nodup) {r : ℕ} (hr : r < idx.length) :
    ∀ l : List ℤ, (∀ s ∈ ranks, s < idx.length) →
      (∀ s, s < idx.length → idx.getD s 0 < l.length) →
      (setRanks idx l ranks v).getD (idx.getD r 0) 0 =
        if r ∈ ranks then v else l.getD (idx.getD r 0) 0 := by
  induction ranks with
  | nil =>
    intro l _ _
    simp [setRanks]
  | cons a as ih =>
    intro l hranks hpos
    have ha : a < idx.length := hranks a (List.mem_cons_self a as)
    have hstep : setRanks idx l (a :: as) v
        = setRanks idx (l.set (idx.getD a 0) v) as v := rfl
    have hpos' : ∀ s, s < idx.length → idx.getD s 0 < (l.set (idx.getD a 0) v).length := by
      intro s hs
      simpa using hpos s hs
    have hranks' : ∀ s ∈ as, s < idx.length := fun s hs => hranks s (List.mem_cons_of_mem a hs)
    rw [hstep, ih (l.set (idx.getD a 0) v) hranks' hpos']
    by_cases hmem : r ∈ as
    · simp [hmem]
    · by_cases heq : r = a
      · subst heq
        simp only [hmem, if_false, List.mem_cons, true_or, if_true]
        exact getD_set_self l (hpos r hr) v 0
      · have hne : idx.getD a 0 ≠ idx.getD r 0 := by
          intro h
          exact heq (nodup_getD_inj hnd hr ha h.symm)
        simp only [hmem, if_false, List.mem_cons, heq, false_or]
        exact getD_set_ne l hne v 0

theorem setRanks_mem {idx : List ℕ} {ranks : List ℕ} {v : ℤ} {x : ℤ} :
    ∀ l : List ℤ, x ∈ setRanks idx l ranks v → x ∈ l ∨ x = v := by
  induction ranks with
  | nil => exact fun l h => Or.inl h
  | cons a as ih =>
    intro l h
    have hstep : setRanks idx l (a :: as) v
        = setRanks idx (l.set (idx.getD a 0) v) as v := rfl
    rw [hstep] at h
    rcases ih _ h with h' | h'
    · exact List.mem_or_eq_of_mem_set h'
    · exact Or.inr h'

/-! ### Rank-level characterization of winsorize -/

theorem lowerPass_length (l : List ℤ) (li : ℤ) : (lowerPass l li).length = l.length := by
  unfold lowerPass
  split_ifs with h
  · exact setRanks_length _ _ _ _
  · rfl

theorem upperPass_length (l l1 : List ℤ) (ui : ℤ) :
    (upperPass l l1 ui).length = l1.length := by
  unfold upperPass
  split_ifs with h
  · exact setRanks_length _ _ _ _
  · rfl

theorem winsorize_length (l : List ℤ) (lo hi : ℚ) :
    (winsorize l lo hi).length = l.length := by
  unfold winsorize
  split_ifs with h
  · rfl
  · rw [upperPass_length, lowerPass_length]

theorem lowerPass_getD (l : List ℤ) (li : ℤ) {r : ℕ} (hr : r < l.length) :
    (lowerPass l li).getD ((sIdx l).getD r 0) 0 =
      if 0 < li ∧ li < (l.length : ℤ) ∧ (r : ℤ) < li then (sVals l).getD li.toNat 0
      else (sVals l).getD r 0 := by
  have hr' : r < (sIdx l).length := by rw [sIdx_length]; exact hr
  by_cases hA : 0 < li ∧ li < (l.length : ℤ)
  · rw [lowerPass, if_pos hA,
      setRanks_getD (sIdx l) _ _ (sIdx_nodup l) hr' l
        (fun s hs => by
          rw [sIdx_length]
          have := List.mem_range.mp hs
          omega)
        (fun s hs => sIdx_getD_lt (by rwa [sIdx_length] at hs))]
    by_cases hB : (r : ℤ) < li
    · have hmem : r ∈ List.range li.toNat := List.mem_range.mpr (by omega)
      rw [if_pos hmem, if_pos ⟨hA.1, hA.2, hB⟩,
        sVals_getD (show li.toNat < l.length by omega)]
    · have hmem : r ∉ List.range li.toNat := by
        intro hc
        have := List.mem_range.mp hc
        omega
      rw [if_neg hmem, if_neg (by tauto), sVals_getD hr]
  · rw [lowerPass, if_neg hA, if_neg (by tauto), sVals_getD hr]

theorem upperPass_getD (l l1 : List ℤ) (ui : ℤ) (hlen : l1.length = l.length)
    {r : ℕ} (hr : r < l.length) :
    (upperPass l l1 ui).getD ((sIdx l).getD r 0) 0 =
      if 0 < ui ∧ ui < (l.length : ℤ) ∧ ui ≤ (r : ℤ) then
        l1.getD ((sIdx l).getD (ui.toNat - 1) 0) 0
      else l1.getD ((sIdx l).getD r 0) 0 := by
  have hr' : r < (sIdx l).length := by rw [sIdx_length]; exact hr
  by_cases hA : 0 < ui ∧ ui < (l.length : ℤ)
  · rw [upperPass, if_pos hA,
      setRanks_getD (sIdx l) _ _ (sIdx_nodup l) hr' l1
        (fun s hs => by
          rw [sIdx_length]
          rcases List.mem_range'.mp hs with ⟨i, hi1, hi2⟩
          omega)
        (fun s hs => by
          rw [hlen]
          exact sIdx_getD_lt (by rwa [sIdx_length] at hs))]
    by_cases hB : ui ≤ (r : ℤ)
    · have hmem : r ∈ List.range' ui.toNat (l.length - ui.toNat) := by
        rw [List.mem_range']
        exact ⟨r - ui.toNat, by omega, by omega⟩
      rw [if_pos hmem, if_pos ⟨hA.1, hA.2, hB⟩]
    · have hmem : r ∉ List.range' ui.toNat (l.length - ui.toNat) := by
        intro hc
        rcases List.mem_range'.mp hc with ⟨i, hi1, hi2⟩
        omega
      rw [if_neg hmem, if_neg (by tauto)]
  · rw [upperPass, if_neg hA, if_neg (by tauto)]

theorem winsorize_getD_sIdx (l : List ℤ) (lo hi : ℚ) {r : ℕ} (hr : r < l.length) :
    (winsorize l lo hi).getD ((sIdx l).getD r 0) 0 = wRank l lo hi r := by
  have hn : ¬(l.length = 0) := by omega
  rw [winsorize, if_neg hn,
    upperPass_getD l (lowerPass l (lowIdx l lo)) (upIdx l hi)
      (lowerPass_length l (lowIdx l lo)) hr, wRank]
  by_cases hB : 0 < upIdx l hi ∧ upIdx l hi < (l.length : ℤ) ∧ upIdx l hi ≤ (r : ℤ)
  · rw [if_pos hB, if_pos hB,
      lowerPass_getD l (lowIdx l lo) (show (upIdx l hi).toNat - 1 < l.length by omega), glow]
  · rw [if_neg hB, if_neg hB, lowerPass_getD l (lowIdx l lo) hr, glow]

theorem getD_map_range {f : ℕ → ℤ} {n s : ℕ} (hs : s < n) :
    ((List.range n).map f).getD s 0 = f s := by
  rw [getD_of_lt _ _ (by simpa using hs)]
  simp

theorem map_getD_comp {α : Type} (xs : List ℕ) (f : ℕ → α) :
    (List.range xs.length).map (fun r => f (xs.getD r 0)) = xs.map f := by
  apply List.ext_getElem
  · simp
  · intro i h1 h2
    simp only [List.getElem_map, List.getElem_range]
    rw [getD_of_lt _ _ (by simpa using h2)]
    simp

theorem glow_mono (l : List ℤ) (lo : ℚ) {r s : ℕ} (hrs : r ≤ s) (hs : s < l.length) :
    glow l lo r ≤ glow l lo s := by
  unfold glow
  split_ifs with h1 h2 h2
  · exact le_refl _
  · exact sVals_getD_mono (by omega) hs
  · omega
  · exact sVals_getD_mono hrs hs

theorem wRank_mono (l : List ℤ) (lo hi : ℚ) {r s : ℕ} (hrs : r ≤ s) (hs : s < l.length) :
    wRank l lo hi r ≤ wRank l lo hi s := by
  unfold wRank
  split_ifs with h1 h2 h2
  · exact le_refl _
  · omega
  · exact glow_mono l lo (by omega) (by omega)
  · exact glow_mono l lo hrs hs

theorem sVals_winsorize (l : List ℤ) (lo hi : ℚ) :
    sVals (winsorize l lo hi) = (List.range l.length).map (wRank l lo hi) := by
  have hlen := winsorize_length l lo hi
  have hmap : (List.range l.length).map (wRank l lo hi)
      = (sIdx l).map (fun p => (winsorize l lo hi).getD p 0) := by
    rw [← map_getD_comp (sIdx l) (fun p => (winsorize l lo hi).getD p 0), sIdx_length]
    exact List.map_congr_left
      (fun r hr => (winsorize_getD_sIdx l lo hi (List.mem_range.mp hr)).symm)
  have hperm : List.Perm (sVals (winsorize l lo hi))
      ((List.range l.length).map (wRank l lo hi)) := by
    refine (sVals_perm _).trans ?_
    rw [hmap]
    have hw : (List.range l.length).map (fun p => (winsorize l lo hi).getD p 0)
        = winsorize l lo hi := by
      rw [show List.range l.length = List.range (winsorize l lo hi).length by rw [hlen],
        map_getD_range]
    have hp := (sIdx_perm l).map (fun p => (winsorize l lo hi).getD p 0)
    rw [hw] at hp
    exact hp.symm
  have hsorted : ((List.range l.length).map (wRank l lo hi)).Sorted (· ≤ ·) := by
    refine List.pairwise_map.mpr ?_
    refine (List.pairwise_lt_range l.length).imp_of_mem ?_
    intro a b ha hb hab
    exact wRank_mono l lo hi (le_of_lt hab) (List.mem_range.mp hb)
  exact List.eq_of_perm_of_sorted hperm (sVals_sorted _) hsorted

theorem wRank_low_const (l : List ℤ) (lo hi : ℚ)
    (hA : 0 < lowIdx l lo ∧ lowIdx l lo < (l.length : ℤ)) {r : ℕ}
    (hr : (r : ℤ) < lowIdx l lo) :
    wRank l lo hi r = wRank l lo hi (lowIdx l lo).toNat := by
  have hg1 : glow l lo r = (sVals l).getD (lowIdx l lo).toNat 0 := by
    rw [glow, if_pos ⟨hA.1, hA.2, hr⟩]
  have hg2 : glow l lo (lowIdx l lo).toNat = (sVals l).getD (lowIdx l lo).toNat 0 := by
    rw [glow, if_neg (by omega)]
  have hg3 : 0 < upIdx l hi → upIdx l hi ≤ (r : ℤ) →
      glow l lo ((upIdx l hi).toNat - 1) = (sVals l).getD (lowIdx l lo).toNat 0 := by
    intro h1 h2
    rw [glow, if_pos ⟨hA.1, hA.2, by omega⟩]
  have hg4 : 0 < upIdx l hi → upIdx l hi ≤ ((lowIdx l lo).toNat : ℤ) →
      glow l lo ((upIdx l hi).toNat - 1) = (sVals l).getD (lowIdx l lo).toNat 0 := by
    intro h1 h2
    rw [glow, if_pos ⟨hA.1, hA.2, by omega⟩]
  by_cases h1 : 0 < upIdx l hi ∧ upIdx l hi < (l.length : ℤ) ∧ upIdx l hi ≤ (r : ℤ)
  · rw [wRank, if_pos h1, hg3 h1.1 h1.2.2]
    by_cases h2 : 0 < upIdx l hi ∧ upIdx l hi < (l.length : ℤ)
        ∧ upIdx l hi ≤ (((lowIdx l lo).toNat : ℕ) : ℤ)
    · rw [wRank, if_pos h2, hg4 h2.1 h2.2.2]
    · rw [wRank, if_neg h2, hg2]
  · rw [wRank, if_neg h1, hg1]
    by_cases h2 : 0 < upIdx l hi ∧ upIdx l hi < (l.length : ℤ)
        ∧ upIdx l hi ≤ (((lowIdx l lo).toNat : ℕ) : ℤ)
    · rw [wRank, if_pos h2, hg4 h2.1 h2.2.2]
    · rw [wRank, if_neg h2, hg2]

theorem wRank_up_const (l : List ℤ) (lo hi : ℚ)
    (hA : 0 < upIdx l hi ∧ upIdx l hi < (l.length : ℤ)) {r : ℕ}
    (hr : upIdx l hi ≤ (r : ℤ)) :
    wRank l lo hi r = wRank l lo hi ((upIdx l hi).toNat - 1) := by
  rw [wRank, if_pos ⟨hA.1, hA.2, hr⟩, wRank, if_neg (by omega)]

theorem wRank_winsorize (l : List ℤ) (lo hi : ℚ) {r : ℕ} (hr : r < l.length) :
    wRank (winsorize l lo hi) lo hi r = wRank l lo hi r := by
  have hlen : (winsorize l lo hi).length = l.length := winsorize_length l lo hi
  have hlow : lowIdx (winsorize l lo hi) lo = lowIdx l lo := by
    rw [lowIdx, lowIdx, hlen]
  have hup : upIdx (winsorize l lo hi) hi = upIdx l hi := by
    rw [upIdx, upIdx, hlen]
  have hsv : ∀ s, s < l.length → (sVals (winsorize l lo hi)).getD s 0 = wRank l lo hi s := by
    intro s hs
    rw [sVals_winsorize, getD_map_range hs]
  have hglow : ∀ s, s < l.length → glow (winsorize l lo hi) lo s = wRank l lo hi s := by
    intro s hs
    rw [glow, hlow, hlen]
    split_ifs with hc
    · rw [hsv _ (by omega)]
      exact (wRank_low_const l lo hi ⟨hc.1, hc.2.1⟩ hc.2.2).symm
    · exact hsv _ hs
  rw [wRank, hup, hlen]
  split_ifs with hU
  · rw [hglow _ (by omega)]
    exact (wRank_up_const l lo hi ⟨hU.1, hU.2.1⟩ hU.2.2).symm
  · exact hglow _ hr

theorem winsorize_idem (l : List ℤ) (lo hi : ℚ) :
    winsorize (winsorize l lo hi) lo hi = winsorize l lo hi := by
  by_cases hn : l.length = 0
  · have h0 : winsorize l lo hi = l := by rw [winsorize, if_pos hn]
    rw [h0, winsorize, if_pos hn]
  · apply List.ext_getElem (by rw [winsorize_length])
    intro p h1 h2
    have hlen : (winsorize l lo hi).length = l.length := winsorize_length l lo hi
    obtain ⟨r, hrn, hre⟩ := sIdx_surj h2
    have hrl : r < l.length := by omega
    have eL : (winsorize (winsorize l lo hi) lo hi).getD p 0 = wRank l lo hi r := by
      rw [← hre, winsorize_getD_sIdx _ lo hi hrn]
      exact wRank_winsorize l lo hi hrl
    have eR : (winsorize l lo hi).getD p 0 = wRank l lo hi r := by
      rw [← hre, ← sVals_getD hrn, sVals_winsorize, getD_map_range hrl]
    have h3 := eL.trans eR.symm
    rwa [getD_of_lt _ 0 h1, getD_of_lt _ 0 h2, List.get_eq_getElem,
      List.get_eq_getElem] at h3

/-! ### Further winsorize facts -/

theorem itrunc_zero : itrunc 0 = 0 := by
  simp [itrunc]

theorem lowIdx_zero (l : List ℤ) : lowIdx l 0 = 0 := by
  rw [lowIdx, zero_mul, itrunc_zero]

theorem upIdx_zero (l : List ℤ) : upIdx l 0 = l.length := by
  rw [upIdx, zero_mul, itrunc_zero, sub_zero]

theorem winsorize_zero (l : List ℤ) : winsorize l 0 0 = l := by
  by_cases hn : l.length = 0
  · rw [winsorize, if_pos hn]
  · rw [winsorize, if_neg hn, upperPass, upIdx_zero, if_neg (by omega),
      lowerPass, lowIdx_zero, if_neg (by omega)]

theorem lowerPass_subset {l : List ℤ} {li : ℤ} {x : ℤ} (h : x ∈ lowerPass l li) :
    x ∈ l := by
  rw [lowerPass] at h
  split_ifs at h with hA
  · rcases setRanks_mem _ h with h' | h'
    · exact h'
    · subst h'
      have hlt : (sIdx l).getD li.toNat 0 < l.length := sIdx_getD_lt (by omega)
      rw [getD_of_lt _ _ hlt]
      exact List.get_mem _ _ _
  · exact h

theorem upperPass_subset {l l1 : List ℤ} {ui : ℤ} {x : ℤ} (hlen : l1.length = l.length)
    (h : x ∈ upperPass l l1 ui) : x ∈ l1 := by
  rw [upperPass] at h
  split_ifs at h with hA
  · rcases setRanks_mem _ h with h' | h'
    · exact h'
    · subst h'
      have hlt : (sIdx l).getD (ui.toNat - 1) 0 < l1.length := by
        rw [hlen]
        exact sIdx_getD_lt (by omega)
      rw [getD_of_lt _ _ hlt]
      exact List.get_mem _ _ _
  · exact h

theorem winsorize_subset {l : List ℤ} {lo hi : ℚ} {x : ℤ}
    (h : x ∈ winsorize l lo hi) : x ∈ l := by
  rw [winsorize] at h
  split_ifs at h with hn
  · exact h
  · exact lowerPass_subset (upperPass_subset (lowerPass_length _ _) h)

theorem winsorize_sum_nonneg {l : List ℤ} (hl : ∀ x ∈ l, 0 ≤ x) (lo hi : ℚ) :
    0 ≤ (winsorize l lo hi).sum :=
  List.sum_nonneg (fun x hx => hl x (winsorize_subset hx))

/-! ### Integer division helpers -/

theorem fdiv_fdiv_nonneg (a : ℤ) (ha : 0 ≤ a) (p q : ℕ) :
    (a.fdiv (p : ℤ)).fdiv (q : ℤ) = a.fdiv ((p : ℤ) * (q : ℤ)) := by
  obtain ⟨m, rfl⟩ := Int.eq_ofNat_of_zero_le ha
  rw [← Int.ofNat_fdiv, ← Int.ofNat_fdiv, Nat.div_div_eq_div_mul, ← Int.ofNat_mul,
    ← Int.ofNat_fdiv]

/-! ### Region state lemmas -/

theorem cycleStep_success (r : Region) (t : ℕ) :
    cycleStep r (.response 200 t) =
      { r with
        measurements := r.measurements ++ [(t : ℤ)]
        average_rtt_ns := some ((winsorize (r.measurements ++ [(t : ℤ)])
          WINSORIZED_MEAN_LOWER_LIMIT WINSORIZED_MEAN_UPPER_LIMIT).sum.fdiv
          ((winsorize (r.measurements ++ [(t : ℤ)]) WINSORIZED_MEAN_LOWER_LIMIT
            WINSORIZED_MEAN_UPPER_LIMIT).length : ℤ)) } := by
  simp [cycleStep, Region.ping, Region.pingBody]

theorem ping_caughtFailure (r : Region) (o : ProbeOutcome) (h : caughtFailure o = true) :
    ∃ e : PyExc, caughtByPing e = true ∧
      r.ping o = .ok (r, none, [pingErrorLine r.id e]) := by
  cases o with
  | response s t =>
    have hs : ¬(s = 200) := by simpa [caughtFailure] using h
    exact ⟨.valueError ("Unexpected HTTP status code: " ++ toString s), rfl,
      by simp [Region.ping, Region.pingBody, hs, caughtByPing]⟩
  | raised e =>
    have he : caughtByPing e = true := by simpa [caughtFailure] using h
    exact ⟨e, he, by simp [Region.ping, Region.pingBody, he]⟩

theorem ping_uncaught (r : Region) (e : PyExc) (h : caughtByPing e = false) :
    r.ping (.raised e) = .error e := by
  simp [Region.ping, Region.pingBody, h]

theorem cycleStep_not_success (r : Region) (o : ProbeOutcome) (h : o.isSuccess = false) :
    cycleStep r o = r := by
  cases o with
  | response s t =>
    have hs : ¬(s = 200) := by simpa [ProbeOutcome.isSuccess] using h
    obtain ⟨e, _, he⟩ := ping_caughtFailure r (.response s t)
      (by simpa [caughtFailure] using hs)
    rw [cycleStep, he]
  | raised e =>
    cases he : caughtByPing e with
    | true =>
      obtain ⟨e', _, he'⟩ := ping_caughtFailure r (.raised e) (by simpa [caughtFailure])
      rw [cycleStep, he']
    | false => rw [cycleStep, ping_uncaught r e he]

theorem reachable_inv {r : Region} (h : Reachable r) : RegionInv r := by
  induction h with
  | init id => simp [RegionInv, Region.init]
  | step o hr ih =>
    rename_i r0
    cases hsucc : o.isSuccess with
    | false => rwa [cycleStep_not_success r0 o hsucc]
    | true =>
      obtain ⟨s, t, rfl⟩ : ∃ s t, o = .response s t := by
        cases o with
        | response s t => exact ⟨s, t, rfl⟩
        | raised e => simp [ProbeOutcome.isSuccess] at hsucc
      have hs : s = 200 := by simpa [ProbeOutcome.isSuccess] using hsucc
      subst hs
      rw [cycleStep_success r0 t]
      refine ⟨?_, by simp, ?_⟩
      · intro x hx
        rcases List.mem_append.mp hx with hx | hx
        · exact ih.1 x hx
        · simp only [List.mem_singleton] at hx
          subst hx
          exact Int.ofNat_nonneg t
      · intro _
        simp [winsorize_length]

theorem reachable_average_ns {r : Region} (h : Reachable r) (hne : r.measurements ≠ []) :
    r.average_rtt_ns = some ((winsorize r.measurements WINSORIZED_MEAN_LOWER_LIMIT
      WINSORIZED_MEAN_UPPER_LIMIT).sum.fdiv (r.measurements.length : ℤ)) :=
  (reachable_inv h).2.2 hne

theorem cycleStep_ping_count (r : Region) (o : ProbeOutcome) :
    (cycleStep r o).ping_count = r.ping_count + (if o.isSuccess then 1 else 0) := by
  cases hsucc : o.isSuccess with
  | false =>
    rw [cycleStep_not_success r o hsucc]
    simp
  | true =>
    obtain ⟨s, t, rfl⟩ : ∃ s t, o = .response s t := by
      cases o with
      | response s t => exact ⟨s, t, rfl⟩
      | raised e => simp [ProbeOutcome.isSuccess] at hsucc
    have hs : s = 200 := by simpa [ProbeOutcome.isSuccess] using hsucc
    subst hs
    rw [cycleStep_success]
    simp [Region.ping_count]

theorem runCycles_ping_count : ∀ (os : List ProbeOutcome) (r : Region),
    (runCycles r os).ping_count
      = r.ping_count + (os.filter (fun o => o.isSuccess)).length := by
  intro os
  induction os with
  | nil =>
    intro r
    simp [runCycles]
  | cons o os ih =>
    intro r
    have hstep : runCycles r (o :: os) = runCycles (cycleStep r o) os := rfl
    rw [hstep, ih (cycleStep r o), cycleStep_ping_count, List.filter_cons]
    cases h : o.isSuccess <;> simp [h] <;> omega

/-! ### Main-loop lemmas -/

theorem pingLoop_exit {pc : ℤ} :
    ∀ fuel count k, pingLoop pc fuel count = some k → k = max pc.toNat count := by
  intro fuel
  induction fuel with
  | zero =>
    intro count k h
    simp [pingLoop] at h
  | succ f ih =>
    intro count k h
    rw [pingLoop] at h
    split_ifs at h with hc
    · have := ih (count + 1) k h
      omega
    · injection h with h
      omega

theorem pingLoop_runs (pc : ℤ) :
    ∀ fuel count, max pc.toNat count < count + fuel →
      pingLoop pc fuel count = some (max pc.toNat count) := by
  intro fuel
  induction fuel with
  | zero =>
    intro count h
    exact absurd h (by omega)
  | succ f ih =>
    intro count h
    rw [pingLoop]
    split_ifs with hc
    · rw [ih (count + 1) (by omega)]
      congr 1
      omega
    · congr 1
      omega

/-! ### Claim theorems -/

/-- C1, counterexample: after one completed cycle whose probe fails (here
an HTTP 503 response), `ping_count` is 0, not 1 — the code appends nothing
on failure, so no `-1` sentinel ever enters the history. -/
theorem C1_counterexample :
    (runCycles (Region.init "us-east1") [ProbeOutcome.response 503 5000000]).ping_count = 0 ∧
    ¬((runCycles (Region.init "us-east1")
      [ProbeOutcome.response 503 5000000]).ping_count = 1) := by
  exact ⟨by decide, by decide⟩

/-- C1, amended: exactly one sample is appended per Endpoint per completed
cycle whose probe succeeds, and none on failure; consequently after k
completed cycles the sample count equals the number of successful probes
among them (not k). -/
theorem C1_count_successes (id : String) (os : List ProbeOutcome) :
    (runCycles (Region.init id) os).ping_count
      = (os.filter (fun o => o.isSuccess)).length ∧
    ∀ (r : Region) (o : ProbeOutcome),
      (cycleStep r o).ping_count = r.ping_count + (if o.isSuccess then 1 else 0) := by
  refine ⟨?_, cycleStep_ping_count⟩
  rw [runCycles_ping_count]
  simp [Region.ping_count, Region.init]

/-- C2: for every reachable Region state, the average statistic is `-1`
exactly when the stored history is empty (the history holds precisely the
successful samples — failures append nothing), otherwise it equals the
integer floor of the mean, in milliseconds, of the winsorized history with
tail fractions 0.05 and 0.10; and reading the property twice in a row
yields the same value (the read leaves the state untouched). -/
theorem C2_average_characterization (r : Region) (h : Reachable r) :
    (r.average_rtt_ms = -1 ↔ r.measurements = []) ∧
    (r.measurements ≠ [] →
      r.average_rtt_ms = (winsorize r.measurements WINSORIZED_MEAN_LOWER_LIMIT
        WINSORIZED_MEAN_UPPER_LIMIT).sum.fdiv ((r.measurements.length : ℤ) * 1000000)) ∧
    (readAverage ((readAverage r).2)).1 = (readAverage r).1 := by
  obtain ⟨hnn, hiff, hsome⟩ := reachable_inv h
  by_cases hne : r.measurements = []
  · have h0 : r.average_rtt_ns = none := hiff.mpr hne
    exact ⟨⟨fun _ => hne, fun _ => by simp [Region.average_rtt_ms, h0]⟩,
      fun hc => absurd hne hc, rfl⟩
  · have hsum : 0 ≤ (winsorize r.measurements WINSORIZED_MEAN_LOWER_LIMIT
        WINSORIZED_MEAN_UPPER_LIMIT).sum := winsorize_sum_nonneg hnn _ _
    have havg : r.average_rtt_ms = ((winsorize r.measurements WINSORIZED_MEAN_LOWER_LIMIT
        WINSORIZED_MEAN_UPPER_LIMIT).sum.fdiv (r.measurements.length : ℤ)).fdiv 1000000 := by
      simp [Region.average_rtt_ms, hsome hne]
    have hfd : r.average_rtt_ms = (winsorize r.measurements WINSORIZED_MEAN_LOWER_LIMIT
        WINSORIZED_MEAN_UPPER_LIMIT).sum.fdiv ((r.measurements.length : ℤ) * 1000000) := by
      rw [havg]
      have h6 : ((1000000 : ℕ) : ℤ) = (1000000 : ℤ) := by norm_num
      rw [← h6, fdiv_fdiv_nonneg _ hsum r.measurements.length 1000000]
    have hpos : 0 ≤ r.average_rtt_ms := by
      rw [havg]
      exact Int.fdiv_nonneg (Int.fdiv_nonneg hsum (by positivity)) (by norm_num)
    exact ⟨⟨fun hc => absurd (hc ▸ hpos) (by norm_num), fun hc => absurd hc hne⟩,
      fun _ => hfd, rfl⟩

/-- C2, witness: after one successful ping of 2000000 ns, the average
reads 2 ms. -/
theorem C2_witness :
    (cycleStep (Region.init "r1") (ProbeOutcome.response 200 2000000)).average_rtt_ms = 2 := by
  have h := C2_average_characterization _
    (Reachable.step (ProbeOutcome.response 200 2000000) (Reachable.init "r1"))
  rw [h.2.1 (by decide),
    show (cycleStep (Region.init "r1") (ProbeOutcome.response 200 2000000)).measurements
      = [2000000] from by decide]
  have ha : lowIdx [(2000000 : ℤ)] WINSORIZED_MEAN_LOWER_LIMIT = 0 := by
    norm_num [lowIdx, itrunc, WINSORIZED_MEAN_LOWER_LIMIT] <;> decide
  have hb : upIdx [(2000000 : ℤ)] WINSORIZED_MEAN_UPPER_LIMIT = 1 := by
    norm_num [upIdx, itrunc, WINSORIZED_MEAN_UPPER_LIMIT] <;> decide
  rw [winsorize, if_neg (by decide), ha, hb]
  decide

/-- C3, counterexample: at `lowerFraction = 1` (inside `[0,1]`) on `[1,2]`,
the claim's clamped overwrite would produce `[2,2]`, but `winsorize` skips
the lower overwrite because `lower_index = n` fails its `< n` guard and
returns `[1,2]` unchanged. -/
theorem C3_counterexample :
    winsorize [1, 2] 1 0 = [1, 2] ∧
    winsorizeSpecClamp [1, 2] 1 0 = [2, 2] ∧
    winsorize [1, 2] 1 0 ≠ winsorizeSpecClamp [1, 2] 1 0 := by
  have ha : lowIdx [(1 : ℤ), 2] 1 = 2 := by
    norm_num [lowIdx, itrunc]
  have hb : upIdx [(1 : ℤ), 2] 0 = 2 := by
    norm_num [upIdx, itrunc]
  have ha' : itrunc ((1 : ℚ) * (([1, 2] : List ℤ).length : ℚ)) = 2 := by
    norm_num [itrunc]
  have hb' : itrunc ((0 : ℚ) * (([1, 2] : List ℤ).length : ℚ)) = 0 := by
    norm_num [itrunc]
  have h1 : winsorize [1, 2] 1 0 = [1, 2] := by
    rw [winsorize, if_neg (by decide), ha, hb]
    decide
  have h2 : winsorizeSpecClamp [1, 2] 1 0 = [2, 2] := by
    rw [winsorizeSpecClamp, if_neg (by decide), ha', hb']
    decide
  exact ⟨h1, h2, by rw [h1, h2]; decide⟩

/-- C3, amended: `winsorize` computes `lower_index = int(lowerFraction*n)`
without clamping and performs the lower overwrite only when
`0 < lower_index < n`: every value of sorted rank `< lower_index` becomes
the value at sorted rank `lower_index`; symmetrically it computes
`upper_index = n - int(upperFraction*n)` and, only when
`0 < upper_index < n`, overwrites every value of sorted rank
`>= upper_index` with the value at sorted rank `upper_index - 1` as read
after the lower overwrites; outside those guards a side is skipped
entirely (no clamp to `n-1`). -/
theorem C3_rank_characterization (l : List ℤ) (lo hi : ℚ) (r : ℕ) (hr : r < l.length) :
    (winsorize l lo hi).getD ((sIdx l).getD r 0) 0 =
      if 0 < upIdx l hi ∧ upIdx l hi < (l.length : ℤ) ∧ upIdx l hi ≤ (r : ℤ) then
        (lowerPass l (lowIdx l lo)).getD ((sIdx l).getD ((upIdx l hi).toNat - 1) 0) 0
      else if 0 < lowIdx l lo ∧ lowIdx l lo < (l.length : ℤ) ∧ (r : ℤ) < lowIdx l lo then
        l.getD ((sIdx l).getD (lowIdx l lo).toNat 0) 0
      else l.getD ((sIdx l).getD r 0) 0 := by
  rw [winsorize_getD_sIdx l lo hi hr, wRank]
  by_cases hU : 0 < upIdx l hi ∧ upIdx l hi < (l.length : ℤ) ∧ upIdx l hi ≤ (r : ℤ)
  · rw [if_pos hU, if_pos hU,
      lowerPass_getD l (lowIdx l lo) (show (upIdx l hi).toNat - 1 < l.length by omega), glow]
  · rw [if_neg hU, if_neg hU, glow]
    by_cases hL : 0 < lowIdx l lo ∧ lowIdx l lo < (l.length : ℤ) ∧ (r : ℤ) < lowIdx l lo
    · rw [if_pos hL, if_pos hL,
        sVals_getD (show (lowIdx l lo).toNat < l.length by omega)]
    · rw [if_neg hL, if_neg hL, sVals_getD hr]

/-- C3, witness: the rank characterization instantiated on `[5,7,6]` with
both fractions `1/3` at rank 2. -/
theorem C3_witness :
    2 < ([5, 7, 6] : List ℤ).length ∧
    ((winsorize [5, 7, 6] (1/3) (1/3)).getD ((sIdx [5, 7, 6]).getD 2 0) 0 =
      if 0 < upIdx [5, 7, 6] (1/3) ∧ upIdx [5, 7, 6] (1/3) < (([5, 7, 6] : List ℤ).length : ℤ)
          ∧ upIdx [5, 7, 6] (1/3) ≤ ((2 : ℕ) : ℤ) then
        (lowerPass [5, 7, 6] (lowIdx [5, 7, 6] (1/3))).getD
          ((sIdx [5, 7, 6]).getD ((upIdx [5, 7, 6] (1/3)).toNat - 1) 0) 0
      else if 0 < lowIdx [5, 7, 6] (1/3)
          ∧ lowIdx [5, 7, 6] (1/3) < (([5, 7, 6] : List ℤ).length : ℤ)
          ∧ ((2 : ℕ) : ℤ) < lowIdx [5, 7, 6] (1/3) then
        ([5, 7, 6] : List ℤ).getD ((sIdx [5, 7, 6]).getD (lowIdx [5, 7, 6] (1/3)).toNat 0) 0
      else ([5, 7, 6] : List ℤ).getD ((sIdx [5, 7, 6]).getD 2 0) 0) :=
  ⟨by decide, C3_rank_characterization [5, 7, 6] (1/3) (1/3) 2 (by decide)⟩

/-- C4, counterexample: a timeout is raised as `socket.timeout`, an
`OSError`, which the clause `except (http.client.HTTPException, ValueError)`
does not catch — the probe raises past its boundary instead of reporting
the failure and logging. -/
theorem C4_counterexample :
    (Region.init "us-east1").ping (.raised (.osError "timed out"))
      = .error (.osError "timed out") := by
  rfl

/-- C4, amended: for failures that are a non-200 response or an exception
of the caught classes (`HTTPException`, `ValueError`), `ping` does not
propagate: it returns the `None` result with the state unchanged and logs
one stderr line containing the endpoint id and the exception; but raised
OS-level errors (timeouts, connection failures) propagate out of `ping`. -/
theorem C4_caught_failures_logged (r : Region) (o : ProbeOutcome)
    (h : caughtFailure o = true) :
    (∃ e : PyExc, caughtByPing e = true ∧
      r.ping o = .ok (r, none, [pingErrorLine r.id e]) ∧
      ∃ pre post : String, pingErrorLine r.id e = pre ++ (r.id ++ post)) ∧
    ∀ msg : String, r.ping (.raised (.osError msg)) = .error (.osError msg) := by
  obtain ⟨e, he, hp⟩ := ping_caughtFailure r o h
  exact ⟨⟨e, he, hp, "Error while pinging ", _, rfl⟩,
    fun msg => ping_uncaught r (.osError msg) rfl⟩

/-- C4, witness: a 404 response on a fresh region is caught and logged. -/
theorem C4_witness :
    (∃ e : PyExc, caughtByPing e = true ∧
      (Region.init "r1").ping (.response 404 5)
        = .ok (Region.init "r1", none, [pingErrorLine (Region.init "r1").id e]) ∧
      ∃ pre post : String,
        pingErrorLine (Region.init "r1").id e = pre ++ ((Region.init "r1").id ++ post)) ∧
    ∀ msg : String,
      (Region.init "r1").ping (.raised (.osError msg)) = .error (.osError msg) :=
  C4_caught_failures_logged (Region.init "r1") (.response 404 5) (by decide)

/-- C5: for every non-empty input, `winsorize` returns a list of the same
length; with both fractions 0 it returns the input unchanged; and every
element whose sorted rank lies outside the two overwritten tails keeps its
original value at its original position. -/
theorem C5_length_and_order (l : List ℤ) (lo hi : ℚ) (h : l ≠ []) :
    (winsorize l lo hi).length = l.length ∧
    winsorize l 0 0 = l ∧
    ∀ r : ℕ, r < l.length → lowIdx l lo ≤ (r : ℤ) → (r : ℤ) < upIdx l hi →
      (winsorize l lo hi).getD ((sIdx l).getD r 0) 0 = l.getD ((sIdx l).getD r 0) 0 := by
  refine ⟨winsorize_length l lo hi, winsorize_zero l, ?_⟩
  intro r hr h1 h2
  rw [winsorize_getD_sIdx l lo hi hr, wRank, if_neg (by omega), glow, if_neg (by omega),
    sVals_getD hr]

/-- C5, witness: instantiated on `[3,1,2]` with fractions `1/2` and `1/3`. -/
theorem C5_witness :
    (winsorize [3, 1, 2] (1/2) (1/3)).length = 3 ∧ winsorize [3, 1, 2] 0 0 = [3, 1, 2] :=
  ⟨(C5_length_and_order [3, 1, 2] (1/2) (1/3) (by decide)).1,
    (C5_length_and_order [3, 1, 2] (1/2) (1/3) (by decide)).2.1⟩

/-- C6: `winsorize` is idempotent — applying it a second time with the
same fractions to the output of the first application returns that output
unchanged, for every input list and every pair of fractions. -/
theorem C6_winsorize_idempotent (l : List ℤ) (lo hi : ℚ) :
    winsorize (winsorize l lo hi) lo hi = winsorize l lo hi :=
  winsorize_idem l lo hi

/-- C7: winsorizing `[10, 12, 11, 100]` with fractions 0 and 0.25 replaces
the single largest value 100 by the next-largest 12, giving
`[10, 12, 11, 12]`, whose sum is 45 and whose floored mean is 11. -/
theorem C7_example :
    winsorize [10, 12, 11, 100] 0 (1/4) = [10, 12, 11, 12] ∧
    ([10, 12, 11, 12] : List ℤ).sum = 45 ∧ (45 : ℤ).fdiv 4 = 11 := by
  have ha : lowIdx [(10 : ℤ), 12, 11, 100] 0 = 0 := by
    norm_num [lowIdx, itrunc]
  have hb : upIdx [(10 : ℤ), 12, 11, 100] (1/4) = 3 := by
    norm_num [upIdx, itrunc]
  refine ⟨?_, by decide, by decide⟩
  rw [winsorize, if_neg (by decide), ha, hb]
  decide

/-- C8, counterexample: with a cycle count of 0 the `while count < ping_count`
loop exits at once, having run zero cycles — it does not run forever; and an
absent `-c` flag defaults to 64 cycles, not to running forever. -/
theorem C8_counterexample :
    pingLoop 0 1 0 = some 0 ∧ defaultPingCount = 64 :=
  ⟨rfl, rfl⟩

/-- C8, amended: the cycle count defaults to 64 when absent; for any
configured count `pc` the loop terminates cleanly after exactly
`max pc 0` cycles (in particular, exactly `pc` cycles for positive `pc`,
and immediately for 0), and any normal exit reports exactly that count. -/
theorem C8_loop_terminates_exactly (pc : ℤ) :
    pingLoop pc (pc.toNat + 1) 0 = some pc.toNat ∧
    (∀ fuel k, pingLoop pc fuel 0 = some k → k = pc.toNat) ∧
    defaultPingCount = 64 := by
  refine ⟨?_, ?_, rfl⟩
  · have h := pingLoop_runs pc (pc.toNat + 1) 0 (by omega)
    simpa using h
  · intro fuel k h
    have := pingLoop_exit fuel 0 k h
    omega

/-- C8, witness: with a count of 7 the loop exits after exactly 7 cycles. -/
theorem C8_witness : pingLoop 7 8 0 = some 7 ∧ 7 = (7 : ℤ).toNat :=
  ⟨(C8_loop_terminates_exactly 7).1,
    (C8_loop_terminates_exactly 7).2.1 8 7 (by decide)⟩

/-- C9: the stored history is append-only — every cycle either leaves it
unchanged or appends exactly the new raw measurement; in particular a
successful ping stores the raw appended history (the winsorized copy used
for the average is a separate list), and reading the average returns the
state unchanged. -/
theorem C9_history_append_only (r : Region) (o : ProbeOutcome) (t : ℕ) :
    (∃ tail, (cycleStep r o).measurements = r.measurements ++ tail) ∧
    (cycleStep r (.response 200 t)).measurements = r.measurements ++ [(t : ℤ)] ∧
    (readAverage r).2 = r := by
  refine ⟨?_, by rw [cycleStep_success], rfl⟩
  cases hsucc : o.isSuccess with
  | false =>
    exact ⟨[], by rw [cycleStep_not_success r o hsucc, List.append_nil]⟩
  | true =>
    obtain ⟨s, u, rfl⟩ : ∃ s u, o = .response s u := by
      cases o with
      | response s u => exact ⟨s, u, rfl⟩
      | raised e => simp [ProbeOutcome.isSuccess] at hsucc
    have hs : s = 200 := by simpa [ProbeOutcome.isSuccess] using hsucc
    subst hs
    exact ⟨[(u : ℤ)], by rw [cycleStep_success]⟩

/-- C10: when `ping`'s failure branch is taken (a caught failure: non-200
status or a caught exception class), the state is left entirely unchanged —
nothing is appended, the cached average is untouched, so `ping_count`,
`last_rtt_ms` and `average_rtt_ms` all read the same as before — and `ping`
returns the `None` result. -/
theorem C10_failed_probe_state_unchanged (r : Region) (o : ProbeOutcome)
    (h : caughtFailure o = true) :
    cycleStep r o = r ∧
    (∃ log, r.ping o = .ok (r, none, log)) ∧
    (cycleStep r o).ping_count = r.ping_count ∧
    (cycleStep r o).last_rtt_ms = r.last_rtt_ms ∧
    (cycleStep r o).average_rtt_ms = r.average_rtt_ms := by
  obtain ⟨e, he, hp⟩ := ping_caughtFailure r o h
  have hstep : cycleStep r o = r := by rw [cycleStep, hp]
  exact ⟨hstep, ⟨_, hp⟩, by rw [hstep], by rw [hstep], by rw [hstep]⟩

/-- C10, witness: a caught `HTTPException` on a region with one stored
sample changes none of the three observables. -/
theorem C10_witness :
    cycleStep { id := "r1", measurements := [7000000], average_rtt_ns := some 7000000 }
      (.raised (.httpException "RemoteDisconnected")) =
      { id := "r1", measurements := [7000000], average_rtt_ns := some 7000000 } ∧
    (∃ log, Region.ping
      { id := "r1", measurements := [7000000], average_rtt_ns := some 7000000 }
      (.raised (.httpException "RemoteDisconnected")) =
      .ok ({ id := "r1", measurements := [7000000], average_rtt_ns := some 7000000 },
        none, log)) ∧
    (cycleStep { id := "r1", measurements := [7000000], average_rtt_ns := some 7000000 }
      (.raised (.httpException "RemoteDisconnected"))).ping_count =
      Region.ping_count { id := "r1", measurements := [7000000], average_rtt_ns := some 7000000 } ∧
    (cycleStep { id := "r1", measurements := [7000000], average_rtt_ns := some 7000000 }
      (.raised (.httpException "RemoteDisconnected"))).last_rtt_ms =
      Region.last_rtt_ms { id := "r1", measurements := [7000000], average_rtt_ns := some 7000000 } ∧
    (cycleStep { id := "r1", measurements := [7000000], average_rtt_ns := some 7000000 }
      (.raised (.httpException "RemoteDisconnected"))).average_rtt_ms =
      Region.average_rtt_ms { id := "r1", measurements := [7000000], average_rtt_ns := some 7000000 } :=
  C10_failed_probe_state_unchanged _ _ (by decide)

end GcloudPing
